import Mathlib

/-!
Verification of the Apriori mining core of the cafe-orders application
(src/app.py).  The application delegates the algorithmic core (transaction
encoding, frequent-itemset mining, association-rule generation) to a library;
only the calling pipeline and the rules-network construction live in the
repository.  The encoder, miner and rule generator below are therefore
modelled from the specification (sections 4.1 - 4.3 and 6), while the
edge-weight construction of the rules network graph is embedded from the
source loop (src/app.py lines 92 - 97).

Items are atomic identifiers, modelled as naturals; a transaction is a set of
items (duplicates collapse to presence, per the spec data model).  Support is
a rational in [0,1].
-/

abbrev Item : Type := ℕ

abbrev Transaction : Type := Finset Item

/-- Modelled from the spec: the universe of distinct items seen across all
transactions (section 3, Data Model). -/
def universeOf (ts : List Transaction) : Finset Item :=
  ts.foldr (fun t u => t ∪ u) ∅

/-- Modelled from the spec: support(I) = (count of transactions containing
all items of I) / (total transaction count) (section 3, Data Model). -/
def support (ts : List Transaction) (I : Finset Item) : ℚ :=
  (ts.countP (fun t => decide (I ⊆ t)) : ℚ) / (ts.length : ℚ)

/-- Modelled from the spec: the Frequent Itemset Collection — every itemset I
with 1 ≤ |I| ≤ |universe| and support(I) ≥ min_support (section 4.2,
Contract).  The level-wise candidate generation described in the spec
computes exactly this set, by downward closure. -/
def frequentItemsets (ts : List Transaction) (minSupport : ℚ) : Finset Transaction :=
  (universeOf ts).powerset.filter (fun I => I.Nonempty ∧ minSupport ≤ support ts I)

/-- Modelled from the spec: the Miner validates its threshold first — valid
range is the open-to-closed interval (0,1], anything outside is an
InvalidThreshold error with no partial result (sections 4.2 and 7). -/
def apriori (ts : List Transaction) (minSupport : ℚ) :
    Except String (Finset Transaction) :=
  if 0 < minSupport ∧ minSupport ≤ 1 then
    Except.ok (frequentItemsets ts minSupport)
  else
    Except.error "InvalidThreshold"

/-- Modelled from the spec: confidence(A→B) = support(A ∪ B) / support(A)
(section 3, Data Model). -/
def confidence (ts : List Transaction) (A B : Finset Item) : ℚ :=
  support ts (A ∪ B) / support ts A

/-- Modelled from the spec: lift(A→B) = confidence(A→B) / support(B)
(section 3, Data Model). -/
def liftMetric (ts : List Transaction) (A B : Finset Item) : ℚ :=
  confidence ts A B / support ts B

/-- Modelled from the spec: the Rule Generator — for every frequent itemset I
with |I| ≥ 2, every nonempty proper subset A ⊂ I is a candidate antecedent
with consequent I \ A; the rule is retained iff
support(I)/support(A) ≥ min_confidence (section 4.3).  A rule is the ordered
pair (antecedent, consequent); the metrics are the functions `support`,
`confidence` and `liftMetric`. -/
def association_rules (ts : List Transaction) (freq : Finset Transaction)
    (minConf : ℚ) : Finset (Transaction × Transaction) :=
  (freq.filter (fun I => 2 ≤ I.card)).biUnion (fun I =>
    (I.powerset.filter
        (fun A => A.Nonempty ∧ A ≠ I ∧ minConf ≤ support ts I / support ts A)).image
      (fun A => (A, I \ A)))

/-- Modelled from the spec: the Transaction Encoder — the sorted list of
distinct items (the column universe) plus a boolean matrix with one row per
transaction and one column per universe item (section 4.1). -/
def encode (ts : List Transaction) : List Item × List (List Bool) :=
  let univ := (universeOf ts).sort (· ≤ ·)
  (univ, ts.map (fun t => univ.map (fun i => decide (i ∈ t))))

/-- Modelled from the spec: the full mine-then-generate-rules pipeline —
encode, mine, then derive rules from the mined frequent itemsets
(section 2, data flow). -/
def pipeline (ts : List Transaction) (ms mc : ℚ) :
    (List Item × List (List Bool)) ×
      Except String (Finset Transaction × Finset (Transaction × Transaction)) :=
  (encode ts, (apriori ts ms).map (fun F => (F, association_rules ts F mc)))

/-- Row of the rules table as consumed by the network-graph loop of
src/app.py lines 94 - 97: an antecedent set, a consequent set and a lift
value. -/
structure GraphRule where
  antecedents : Transaction
  consequents : Transaction
  liftValue : ℚ
deriving DecidableEq

/-- Embedded from src/app.py lines 92 - 97: the loop
`for _, row in rules.iterrows(): for ant in row[antecedents]: for con in
row[consequents]: G.add_edge(ant, con, weight=row[lift])`.  A later
`add_edge` on an existing edge overwrites its weight attribute, so the map
from an ordered pair to its weight is a left fold that overwrites. -/
def edgeWeight (rules : List GraphRule) (a c : Item) : Option ℚ :=
  rules.foldl
    (fun w r => if a ∈ r.antecedents ∧ c ∈ r.consequents then some r.liftValue else w)
    none

/-! ### Scenario inputs (spec section 8) with a = 0, b = 1, c = 2 -/

def tsA : List Transaction := [{0, 1}, {0, 1, 2}, {0}, {1, 2}]

/-! ### Computable counterparts over counts, for concrete evaluation -/

/-- Count of transactions containing all items of I. -/
def supportCount (ts : List Transaction) (I : Finset Item) : ℕ :=
  ts.countP (fun t => decide (I ⊆ t))

/-- The frequent-itemset filter with the threshold a/b cleared of division by
cross-multiplication; agrees with `frequentItemsets` on nonempty transaction
lists. -/
def frequentItemsetsN (ts : List Transaction) (a b : ℕ) : Finset Transaction :=
  (universeOf ts).powerset.filter
    (fun I => I.Nonempty ∧ a * ts.length ≤ b * supportCount ts I)

/-- The rule filter with the threshold a/b cleared of division by
cross-multiplication; agrees with `association_rules` on nonempty transaction
lists when a > 0. -/
def association_rulesN (ts : List Transaction) (freq : Finset Transaction)
    (a b : ℕ) : Finset (Transaction × Transaction) :=
  (freq.filter (fun I => 2 ≤ I.card)).biUnion (fun I =>
    (I.powerset.filter
        (fun A => A.Nonempty ∧ A ≠ I ∧ 0 < supportCount ts A ∧
          a * supportCount ts A ≤ b * supportCount ts I)).image
      (fun A => (A, I \ A)))

/-! ### Basic lemmas about support -/

lemma support_eq (ts : List Transaction) (I : Finset Item) :
    support ts I = (supportCount ts I : ℚ) / (ts.length : ℚ) := rfl

lemma supportCount_mono (ts : List Transaction) {J I : Finset Item} (h : J ⊆ I) :
    supportCount ts I ≤ supportCount ts J := by
  refine List.countP_mono_left (fun t _ ht => ?_)
  simp only [decide_eq_true_eq] at ht ⊢
  exact h.trans ht

lemma support_mono (ts : List Transaction) {J I : Finset Item} (h : J ⊆ I) :
    support ts I ≤ support ts J := by
  rcases eq_or_ne ts [] with rfl | hts
  · simp [support]
  · have hl : (0 : ℚ) < ts.length := by
      exact_mod_cast List.length_pos.mpr hts
    rw [support_eq, support_eq, div_le_div_iff_of_pos_right hl]
    exact_mod_cast supportCount_mono ts h

lemma support_nonneg (ts : List Transaction) (I : Finset Item) :
    0 ≤ support ts I := by
  rw [support_eq]
  positivity

lemma exists_mem_of_support_pos {ts : List Transaction} {I : Finset Item}
    (h : 0 < support ts I) : ∃ t ∈ ts, I ⊆ t := by
  have hc : 0 < supportCount ts I := by
    by_contra hc
    push_neg at hc
    interval_cases hcount : supportCount ts I
    rw [support_eq, hcount] at h
    simp at h
  rcases List.countP_pos_iff.mp hc with ⟨t, ht, hIt⟩
  exact ⟨t, ht, of_decide_eq_true hIt⟩

lemma subset_universeOf {ts : List Transaction} {t : Transaction}
    (h : t ∈ ts) : t ⊆ universeOf ts := by
  induction ts with
  | nil => cases h
  | cons s ts ih =>
      rcases List.mem_cons.mp h with rfl | h
      · exact fun x hx => by
          simp only [universeOf, List.foldr_cons, Finset.mem_union]
          exact Or.inl hx
      · exact fun x hx => by
          simp only [universeOf, List.foldr_cons, Finset.mem_union]
          exact Or.inr (ih h hx)

lemma subset_universeOf_of_support_pos {ts : List Transaction} {I : Finset Item}
    (h : 0 < support ts I) : I ⊆ universeOf ts := by
  rcases exists_mem_of_support_pos h with ⟨t, ht, hIt⟩
  exact hIt.trans (subset_universeOf ht)

lemma mem_frequentItemsets {ts : List Transaction} {ms : ℚ} {I : Finset Item} :
    I ∈ frequentItemsets ts ms ↔
      I ⊆ universeOf ts ∧ I.Nonempty ∧ ms ≤ support ts I := by
  simp [frequentItemsets, Finset.mem_filter, Finset.mem_powerset]

lemma apriori_ok {ts : List Transaction} {ms : ℚ} (h0 : 0 < ms) (h1 : ms ≤ 1) :
    apriori ts ms = Except.ok (frequentItemsets ts ms) := by
  rw [apriori, if_pos ⟨h0, h1⟩]

/-! ### Agreement of the rational filters with their count-level counterparts -/

lemma frequentItemsets_ratio (ts : List Transaction) (a b : ℕ) (hb : 0 < b)
    (hts : ts ≠ []) :
    frequentItemsets ts ((a : ℚ) / (b : ℚ)) = frequentItemsetsN ts a b := by
  unfold frequentItemsets frequentItemsetsN
  refine Finset.filter_congr (fun I _ => ?_)
  refine and_congr_right (fun _ => ?_)
  have hl : (0 : ℚ) < ts.length := by exact_mod_cast List.length_pos.mpr hts
  have hbq : (0 : ℚ) < b := by exact_mod_cast hb
  rw [support_eq, div_le_div_iff₀ hbq hl,
    mul_comm ((supportCount ts I : ℚ)) ((b : ℚ))]
  exact_mod_cast Iff.rfl

lemma association_rules_ratio (ts : List Transaction) (freq : Finset Transaction)
    (a b : ℕ) (ha : 0 < a) (hb : 0 < b) (hts : ts ≠ []) :
    association_rules ts freq ((a : ℚ) / (b : ℚ)) = association_rulesN ts freq a b := by
  unfold association_rules association_rulesN
  refine Finset.biUnion_congr rfl (fun I _ => ?_)
  congr 1
  refine Finset.filter_congr (fun A hA => ?_)
  refine and_congr_right (fun _ => and_congr_right (fun _ => ?_))
  have hl : (0 : ℚ) < ts.length := by exact_mod_cast List.length_pos.mpr hts
  have hbq : (0 : ℚ) < b := by exact_mod_cast hb
  have haq : (0 : ℚ) < a := by exact_mod_cast ha
  rw [support_eq, support_eq]
  rcases Nat.eq_zero_or_pos (supportCount ts A) with hA0 | hA0
  · rw [hA0]
    simp only [Nat.cast_zero, zero_div, div_zero, lt_irrefl, false_and, iff_false]
    exact not_le.mpr (div_pos haq hbq)
  · have hAq : (0 : ℚ) < (supportCount ts A : ℚ) := by exact_mod_cast hA0
    rw [div_div_div_comm, div_self hl.ne', div_one, div_le_div_iff₀ hbq hAq]
    constructor
    · intro h
      refine ⟨hA0, ?_⟩
      have := (mul_comm ((supportCount ts I : ℚ)) ((b : ℚ))) ▸ h
      exact_mod_cast this
    · rintro ⟨-, h⟩
      have : (a : ℚ) * (supportCount ts A : ℚ) ≤ (b : ℚ) * (supportCount ts I : ℚ) := by
        exact_mod_cast h
      linarith [this]

/-! ### Scenario evaluations -/

lemma tsA_ne_nil : tsA ≠ [] := by simp [tsA]

lemma freqA_eval : frequentItemsets tsA (1 / 2) =
    ({{0}, {1}, {2}, {0, 1}, {1, 2}} : Finset (Finset ℕ)) := by
  have h : ((1 : ℕ) : ℚ) / ((2 : ℕ) : ℚ) = 1 / 2 := by norm_num
  rw [← h, frequentItemsets_ratio tsA 1 2 (by norm_num) tsA_ne_nil]
  decide

lemma rulesB_eval :
    association_rules tsA (frequentItemsets tsA (1 / 2)) (3 / 5) =
      ({({0}, {1}), ({1}, {0}), ({1}, {2}), ({2}, {1})} :
        Finset (Finset ℕ × Finset ℕ)) := by
  have h : ((3 : ℕ) : ℚ) / ((5 : ℕ) : ℚ) = 3 / 5 := by norm_num
  rw [freqA_eval, ← h,
    association_rules_ratio tsA _ 3 5 (by norm_num) (by norm_num) tsA_ne_nil]
  decide

lemma support_val (ts : List Transaction) (I : Finset Item) (c l : ℕ)
    (hc : supportCount ts I = c) (hl : ts.length = l) :
    support ts I = (c : ℚ) / (l : ℚ) := by
  rw [support_eq, hc, hl]

lemma frequentItemsets_nil (ms : ℚ) : frequentItemsets [] ms = ∅ := by
  ext I
  rw [mem_frequentItemsets]
  simp only [Finset.not_mem_empty, iff_false]
  rintro ⟨hsub, hne, -⟩
  exact hne.ne_empty (Finset.subset_empty.mp hsub)

lemma rule_mem_structure {ts : List Transaction} {freq : Finset Transaction}
    {mc : ℚ} {r : Transaction × Transaction}
    (hr : r ∈ association_rules ts freq mc) :
    ∃ I ∈ freq, 2 ≤ I.card ∧ ∃ A, A ⊆ I ∧ A.Nonempty ∧ A ≠ I ∧
      mc ≤ support ts I / support ts A ∧ r = (A, I \ A) := by
  simp only [association_rules, Finset.mem_biUnion, Finset.mem_filter,
    Finset.mem_image, Finset.mem_powerset] at hr
  rcases hr with ⟨I, ⟨hIfreq, hIcard⟩, A, ⟨hAI, hAne, hAneI, hconf⟩, hrA⟩
  exact ⟨I, hIfreq, hIcard, A, hAI, hAne, hAneI, hconf, hrA.symm⟩

lemma rule_supports_pos {ts : List Transaction} {ms mc : ℚ}
    {r : Transaction × Transaction} (h0 : 0 < ms)
    (hr : r ∈ association_rules ts (frequentItemsets ts ms) mc) :
    ms ≤ support ts (r.1 ∪ r.2) ∧ support ts (r.1 ∪ r.2) ≤ support ts r.1 := by
  rcases rule_mem_structure hr with ⟨I, hIfreq, hIcard, A, hAI, hAne, hAneI, hconf, rfl⟩
  have hunion : A ∪ (I \ A) = I := Finset.union_sdiff_of_subset hAI
  show ms ≤ support ts (A ∪ (I \ A)) ∧ support ts (A ∪ (I \ A)) ≤ support ts A
  rw [hunion]
  rcases mem_frequentItemsets.mp hIfreq with ⟨-, -, hIs⟩
  exact ⟨hIs, support_mono ts hAI⟩

/-! ### Claims -/

/-- C1: for every transaction list and every min_support in (0,1], every
itemset returned by the miner has support ≥ min_support, and every non-empty
subset J of a returned frequent itemset I is also present in the returned
collection with support(J) ≥ support(I) (downward closure). -/
theorem apriori_downward_closure (ts : List Transaction) (ms : ℚ)
    (F : Finset Transaction) (h0 : 0 < ms) (h1 : ms ≤ 1)
    (hF : apriori ts ms = Except.ok F) (I : Finset Item) (hI : I ∈ F) :
    ms ≤ support ts I ∧
      ∀ J, J ⊆ I → J.Nonempty → J ∈ F ∧ support ts I ≤ support ts J := by
  rw [apriori_ok h0 h1] at hF
  injection hF with hF
  subst hF
  rcases mem_frequentItemsets.mp hI with ⟨hIu, hIne, hIs⟩
  refine ⟨hIs, fun J hJI hJne => ?_⟩
  exact ⟨mem_frequentItemsets.mpr
      ⟨hJI.trans hIu, hJne, hIs.trans (support_mono ts hJI)⟩,
    support_mono ts hJI⟩

/-- Witness for C1 at Scenario A, I = {a,b}. -/
theorem apriori_downward_closure_witness :
    (1 / 2 : ℚ) ≤ support tsA {0, 1} ∧
      ∀ J, J ⊆ ({0, 1} : Finset ℕ) → J.Nonempty →
        J ∈ frequentItemsets tsA (1 / 2) ∧ support tsA {0, 1} ≤ support tsA J :=
  apriori_downward_closure tsA (1 / 2) (frequentItemsets tsA (1 / 2))
    (by norm_num) (by norm_num) (apriori_ok (by norm_num) (by norm_num))
    {0, 1} (by rw [freqA_eval]; decide)

/-- C2: Scenario A — transactions [{a,b},{a,b,c},{a},{b,c}] (a = 0, b = 1,
c = 2) with min_support 1/2 yield exactly the frequent itemsets
{a}, {b}, {c}, {a,b}, {b,c}; supports are {a}:3/4, {b}:3/4, {a,b}:1/2,
{c}:1/2, {b,c}:1/2, and {a,c} has support 1/4 < 1/2 (hence excluded). -/
theorem scenarioA_frequent_itemsets :
    apriori tsA (1 / 2) =
      Except.ok ({{0}, {1}, {2}, {0, 1}, {1, 2}} : Finset (Finset ℕ)) ∧
    support tsA {0} = 3 / 4 ∧ support tsA {1} = 3 / 4 ∧
    support tsA {0, 1} = 1 / 2 ∧ support tsA {2} = 1 / 2 ∧
    support tsA {1, 2} = 1 / 2 ∧ support tsA {0, 2} = 1 / 4 := by
  refine ⟨?_, ?_, ?_, ?_, ?_, ?_, ?_⟩
  · rw [apriori_ok (by norm_num) (by norm_num), freqA_eval]
  · rw [support_val tsA {0} 3 4 (by decide) rfl]; norm_num
  · rw [support_val tsA {1} 3 4 (by decide) rfl]; norm_num
  · rw [support_val tsA {0, 1} 2 4 (by decide) rfl]; norm_num
  · rw [support_val tsA {2} 2 4 (by decide) rfl]; norm_num
  · rw [support_val tsA {1, 2} 2 4 (by decide) rfl]; norm_num
  · rw [support_val tsA {0, 2} 1 4 (by decide) rfl]; norm_num

/-- C3: Scenario B — from Scenario A's frequent itemsets with
min_confidence 3/5 the rule generator returns exactly a→b, b→a, b→c and c→b
(a = 0, b = 1, c = 2); confidences are 2/3, 2/3, 2/3 and 1, each equal to
support(antecedent ∪ consequent) / support(antecedent). -/
theorem scenarioB_rules :
    association_rules tsA (frequentItemsets tsA (1 / 2)) (3 / 5) =
      ({({0}, {1}), ({1}, {0}), ({1}, {2}), ({2}, {1})} :
        Finset (Finset ℕ × Finset ℕ)) ∧
    confidence tsA {0} {1} = 2 / 3 ∧ confidence tsA {1} {0} = 2 / 3 ∧
    confidence tsA {1} {2} = 2 / 3 ∧ confidence tsA {2} {1} = 1 := by
  refine ⟨rulesB_eval, ?_, ?_, ?_, ?_⟩
  · rw [confidence, support_val tsA ({0} ∪ {1}) 2 4 (by decide) rfl,
      support_val tsA {0} 3 4 (by decide) rfl]
    norm_num
  · rw [confidence, support_val tsA ({1} ∪ {0}) 2 4 (by decide) rfl,
      support_val tsA {1} 3 4 (by decide) rfl]
    norm_num
  · rw [confidence, support_val tsA ({1} ∪ {2}) 2 4 (by decide) rfl,
      support_val tsA {1} 3 4 (by decide) rfl]
    norm_num
  · rw [confidence, support_val tsA ({2} ∪ {1}) 2 4 (by decide) rfl,
      support_val tsA {2} 2 4 (by decide) rfl]
    norm_num

/-- C4: the empty transaction list encodes to an empty universe and empty
matrix, the miner returns the empty collection (for any valid threshold), and
the rule generator on the empty collection returns no rules; no error is
raised anywhere along the pipeline. -/
theorem empty_input_pipeline (ms mc : ℚ) (h0 : 0 < ms) (h1 : ms ≤ 1) :
    encode [] = ([], []) ∧ apriori [] ms = Except.ok ∅ ∧
    association_rules [] ∅ mc = ∅ := by
  refine ⟨?_, ?_, ?_⟩
  · simp [encode, universeOf]
  · rw [apriori_ok h0 h1, frequentItemsets_nil]
  · simp [association_rules]

/-- Witness for C4 at min_support = min_confidence = 1/2. -/
theorem empty_input_pipeline_witness :
    encode [] = ([], []) ∧ apriori [] (1 / 2) = Except.ok ∅ ∧
    association_rules [] ∅ (1 / 2) = ∅ :=
  empty_input_pipeline (1 / 2) (1 / 2) (by norm_num) (by norm_num)

/-- C5: the miner rejects min_support = 0 and min_support = 3/2 with an
InvalidThreshold error and no partial result, and for every transaction list
it succeeds exactly when min_support lies in (0,1]. -/
theorem apriori_invalid_threshold (ts : List Transaction) (ms : ℚ) :
    apriori ts 0 = Except.error "InvalidThreshold" ∧
    apriori ts (3 / 2) = Except.error "InvalidThreshold" ∧
    ((∃ F, apriori ts ms = Except.ok F) ↔ 0 < ms ∧ ms ≤ 1) := by
  refine ⟨?_, ?_, ?_, ?_⟩
  · rw [apriori, if_neg (by norm_num)]
  · rw [apriori, if_neg (by norm_num)]
  · rintro ⟨F, hF⟩
    by_contra hc
    rw [apriori, if_neg hc] at hF
    cases hF
  · rintro ⟨hms0, hms1⟩
    exact ⟨_, apriori_ok hms0 hms1⟩

/-- C6: every rule produced by the rule generator from the miner's output has
confidence in (0,1]. -/
theorem rule_confidence_bound (ts : List Transaction) (ms mc : ℚ)
    (F : Finset Transaction) (h0 : 0 < ms) (h1 : ms ≤ 1) (hc0 : 0 < mc)
    (hc1 : mc ≤ 1) (hF : apriori ts ms = Except.ok F)
    (r : Transaction × Transaction) (hr : r ∈ association_rules ts F mc) :
    0 < confidence ts r.1 r.2 ∧ confidence ts r.1 r.2 ≤ 1 := by
  rw [apriori_ok h0 h1] at hF
  injection hF with hF
  subst hF
  rcases rule_supports_pos h0 hr with ⟨hms, hle⟩
  have hUpos : 0 < support ts (r.1 ∪ r.2) := lt_of_lt_of_le h0 hms
  have hApos : 0 < support ts r.1 := lt_of_lt_of_le hUpos hle
  rw [confidence]
  exact ⟨div_pos hUpos hApos, (div_le_one hApos).mpr hle⟩

/-- Witness for C6 at Scenario B's rule a→b. -/
theorem rule_confidence_bound_witness :
    0 < confidence tsA ({0} : Finset ℕ) ({1} : Finset ℕ) ∧
      confidence tsA ({0} : Finset ℕ) ({1} : Finset ℕ) ≤ 1 :=
  rule_confidence_bound tsA (1 / 2) (3 / 5) (frequentItemsets tsA (1 / 2))
    (by norm_num) (by norm_num) (by norm_num) (by norm_num)
    (apriori_ok (by norm_num) (by norm_num)) ({0}, {1})
    (by rw [rulesB_eval]; decide)

/-- C7: threshold comparison is inclusive — a nonempty itemset whose support
equals min_support exactly is in the miner's output, and one whose support is
strictly below min_support is not. -/
theorem frequent_threshold_inclusive (ts : List Transaction) (ms : ℚ)
    (F : Finset Transaction) (h0 : 0 < ms) (h1 : ms ≤ 1)
    (hF : apriori ts ms = Except.ok F) (I : Finset Item) (hne : I.Nonempty) :
    (support ts I = ms → I ∈ F) ∧ (support ts I < ms → I ∉ F) := by
  rw [apriori_ok h0 h1] at hF
  injection hF with hF
  subst hF
  constructor
  · intro heq
    have hpos : 0 < support ts I := heq ▸ h0
    exact mem_frequentItemsets.mpr
      ⟨subset_universeOf_of_support_pos hpos, hne, le_of_eq heq.symm⟩
  · intro hlt hmem
    exact absurd (mem_frequentItemsets.mp hmem).2.2 (not_le.mpr hlt)

/-- Witness for C7 at Scenario A, I = {c}, whose support is exactly 1/2. -/
theorem frequent_threshold_inclusive_witness :
    (support tsA {2} = 1 / 2 → ({2} : Finset ℕ) ∈ frequentItemsets tsA (1 / 2)) ∧
    (support tsA {2} < 1 / 2 → ({2} : Finset ℕ) ∉ frequentItemsets tsA (1 / 2)) :=
  frequent_threshold_inclusive tsA (1 / 2) (frequentItemsets tsA (1 / 2))
    (by norm_num) (by norm_num) (apriori_ok (by norm_num) (by norm_num))
    {2} (by decide)

/-- C8: the encode-mine-generate pipeline is deterministic — two runs on
identical inputs produce identical frequent-itemset collections and identical
rule collections (the outputs are finite sets, so equality is order-free set
equality); the embedding is pure, so the result depends only on the inputs. -/
theorem pipeline_deterministic (ts₁ ts₂ : List Transaction)
    (ms₁ ms₂ mc₁ mc₂ : ℚ) (hts : ts₁ = ts₂) (hms : ms₁ = ms₂)
    (hmc : mc₁ = mc₂) :
    pipeline ts₁ ms₁ mc₁ = pipeline ts₂ ms₂ mc₂ := by
  subst hts
  subst hms
  subst hmc
  rfl

/-- Witness for C8: two runs on Scenario A's inputs agree. -/
theorem pipeline_deterministic_witness :
    pipeline tsA (1 / 2) (3 / 5) = pipeline tsA (1 / 2) (3 / 5) :=
  pipeline_deterministic tsA tsA (1 / 2) (1 / 2) (3 / 5) (3 / 5) rfl rfl rfl

/-- C9: every rule produced from the miner's frequent itemsets has an
antecedent of strictly positive support, so the division defining confidence
never divides by zero. -/
theorem rule_antecedent_support_pos (ts : List Transaction) (ms mc : ℚ)
    (F : Finset Transaction) (h0 : 0 < ms) (h1 : ms ≤ 1)
    (hF : apriori ts ms = Except.ok F) (r : Transaction × Transaction)
    (hr : r ∈ association_rules ts F mc) :
    0 < support ts r.1 := by
  rw [apriori_ok h0 h1] at hF
  injection hF with hF
  subst hF
  rcases rule_supports_pos h0 hr with ⟨hms, hle⟩
  exact lt_of_lt_of_le (lt_of_lt_of_le h0 hms) hle

/-- Witness for C9 at Scenario B's rule c→b. -/
theorem rule_antecedent_support_pos_witness :
    0 < support tsA ({2} : Finset ℕ) :=
  rule_antecedent_support_pos tsA (1 / 2) (3 / 5)
    (frequentItemsets tsA (1 / 2)) (by norm_num) (by norm_num)
    (apriori_ok (by norm_num) (by norm_num)) ({2}, {1})
    (by rw [rulesB_eval]; decide)

/-- C10: in the rules-network construction, the weight stored for a directed
pair (a, c) is the lift of the last rule in iteration order whose antecedents
contain a and whose consequents contain c — earlier lifts for the same pair
are overwritten. -/
theorem edgeWeight_last_rule (rules : List GraphRule) (a c : Item) :
    edgeWeight rules a c =
      ((rules.filter
          (fun r => decide (a ∈ r.antecedents ∧ c ∈ r.consequents))).getLast?).map
        GraphRule.liftValue := by
  induction rules using List.reverseRecOn with
  | nil => rfl
  | append_singleton l r ih =>
      simp only [edgeWeight, List.foldl_append, List.foldl_cons, List.foldl_nil]
      rw [List.filter_append]
      by_cases hp : a ∈ r.antecedents ∧ c ∈ r.consequents
      · rw [if_pos hp]
        have hfr : List.filter
            (fun r => decide (a ∈ r.antecedents ∧ c ∈ r.consequents)) [r] = [r] := by
          simp [hp]
        rw [hfr, List.getLast?_concat]
        rfl
      · rw [if_neg hp]
        have hfr : List.filter
            (fun r => decide (a ∈ r.antecedents ∧ c ∈ r.consequents)) [r] = [] := by
          simp [hp]
        rw [hfr, List.append_nil]
        exact ih
